import Mathlib

/-!
Verification of the summary segmentation and rendering logic of the
`news-use` repository (`src/news-use/src/components/NewspaperDetail.tsx`,
the file exporting `NewspaperDetail`): the `parseSummary` pipeline
(normalization passes, paragraph-break insertion, header splitting,
section classification), the `toggleSection` disclosure state, and the
`processChildren` inline article-reference highlighter.

The embedding works on `List Char`.  Each JavaScript
`String.prototype.replace` call with a global regex is translated into a
left-to-right, leftmost-match, non-overlapping scan implementing that
particular regex's matching semantics (greedy quantifiers with the
backtracking behaviour they actually exhibit on these patterns).
Scanning functions that skip over a variable-length match are written
with an explicit fuel argument (structural recursion on the fuel); the
wrapper passes the input length as fuel, which always suffices because
every step consumes at least one character.
-/

namespace NewsUse

/-- Character class of the JavaScript regex `\s` (and of the set stripped
by `String.prototype.trim`): ASCII whitespace plus the Unicode space
separators, byte-order mark and line separators. -/
def jsWsB (c : Char) : Bool :=
  c = ' ' || c = '\t' || c = '\n' || c = '\r' || c = '\x0b' || c = '\x0c' ||
  c = ' ' || c = ' ' ||
  (' ' ≤ c && c ≤ ' ') ||
  c = ' ' || c = ' ' || c = ' ' || c = ' ' ||
  c = '　' || c = '﻿'

/-- JavaScript line terminators: the characters NOT matched by `.`
(dot in a regex without the `s` flag). -/
def lineTermB (c : Char) : Bool :=
  c = '\n' || c = '\r' || c = ' ' || c = ' '

/-- Character class matched by `.` in a JavaScript regex (no `s` flag). -/
def dotB (c : Char) : Bool := !lineTermB c

/-- JavaScript `String.prototype.trim`: drop leading and trailing
whitespace (the `jsWsB` class). -/
def jsTrim (l : List Char) : List Char :=
  ((l.dropWhile jsWsB).reverse.dropWhile jsWsB).reverse

/-- Prefix test on character lists (`String.prototype.startsWith`). -/
def isPrefixB : List Char → List Char → Bool
  | [], _ => true
  | _ :: _, [] => false
  | p :: ps, c :: cs => p = c && isPrefixB ps cs

/-- Substring test on character lists (`String.prototype.includes`). -/
def isSubstr (pat : List Char) : List Char → Bool
  | [] => pat.isEmpty
  | c :: cs => isPrefixB pat (c :: cs) || isSubstr pat cs

/-- Normalization pass 1 of `parseSummary`:
`.replace(/\\n\\n/g, '\n\n')` — each literal four-character sequence
backslash-n-backslash-n becomes two real newlines. -/
def pass1 : List Char → List Char
  | '\\' :: 'n' :: '\\' :: 'n' :: rest => '\n' :: '\n' :: pass1 rest
  | c :: rest => c :: pass1 rest
  | [] => []

/-- Normalization pass 2: `.replace(/\\n/g, '\n')` — each literal
two-character backslash-n becomes a real newline. -/
def pass2 : List Char → List Char
  | '\\' :: 'n' :: rest => '\n' :: pass2 rest
  | c :: rest => c :: pass2 rest
  | [] => []

/-- Helper for pass 3: the regex fragment `\s*\\` matches at the current
position iff the maximal whitespace run starting here is immediately
followed by a backslash; returns the remainder after that backslash. -/
def wsThenBackslash : List Char → Option (List Char)
  | [] => none
  | c :: rest =>
    if c = '\\' then some rest
    else if jsWsB c then wsThenBackslash rest
    else none

/-- Normalization pass 3 (fueled): `.replace(/\s*\\\s*/g, ' ')` — a
backslash together with the maximal whitespace runs around it (either
possibly empty) is replaced by a single space. -/
def pass3F : Nat → List Char → List Char
  | 0, l => l
  | _ + 1, [] => []
  | n + 1, c :: cs =>
    match wsThenBackslash (c :: cs) with
    | some rest => ' ' :: pass3F n (rest.dropWhile jsWsB)
    | none => c :: pass3F n cs

def pass3 (l : List Char) : List Char := pass3F l.length l

/-- Normalization pass 4: `.replace(/\r\n/g, '\n')` — each
carriage-return + newline pair becomes a plain newline. -/
def pass4 : List Char → List Char
  | [] => []
  | [c] => [c]
  | c :: d :: rest =>
    if c = '\r' && d = '\n' then '\n' :: pass4 rest else c :: pass4 (d :: rest)

/-- Normalization pass 5 (fueled): `.replace(/\n{3,}/g, '\n\n')` — each
maximal run of three or more newlines collapses to exactly two. -/
def pass5F : Nat → List Char → List Char
  | 0, l => l
  | _ + 1, [] => []
  | n + 1, c :: cs =>
    if c = '\n' && isPrefixB ['\n', '\n'] cs then
      '\n' :: '\n' :: pass5F n ((cs.drop 2).dropWhile (· = '\n'))
    else c :: pass5F n cs

def pass5 (l : List Char) : List Char := pass5F l.length l

/-- The normalization stage of `parseSummary` (source lines 73–81): the
five cleanup replaces, applied in source order. -/
def normalizeChars (l : List Char) : List Char :=
  pass5 (pass4 (pass3 (pass2 (pass1 l))))

example : normalizeChars "a\\b".data = "a b".data := by decide
example : normalizeChars "x\\ny".data = "x\ny".data := by decide
example : normalizeChars "a\n\n\n\nb".data = "a\n\nb".data := by decide
example : normalizeChars "a\r\nb".data = "a\nb".data := by decide
example : normalizeChars "a \\ b".data = "a b".data := by decide
example : normalizeChars "\r\r\n".data = "\r\n".data := by decide

/-- Sentence-ending punctuation: the class `[.!?]`. -/
def isPunctB (c : Char) : Bool := c = '.' || c = '!' || c = '?'

/-- Pass 6 matcher, for the text after the punctuation character:
`\s*(\d+\.)`.  Returns (captured group `$2`, rest). -/
def matchNumbered (l : List Char) : Option (List Char × List Char) :=
  let w := l.takeWhile jsWsB
  let l1 := l.drop w.length
  let ds := l1.takeWhile Char.isDigit
  if ds.isEmpty then none
  else
    match l1.drop ds.length with
    | '.' :: rest => some (ds ++ ['.'], rest)
    | _ => none

/-- Pass 6 (fueled): `.replace(/([.!?])\s*(\d+\.)/g, '$1\n\n$2')` — break
before numbered sections. -/
def pass6F : Nat → List Char → List Char
  | 0, l => l
  | _ + 1, [] => []
  | n + 1, c :: cs =>
    if isPunctB c then
      match matchNumbered cs with
      | some (g2, rest) => c :: '\n' :: '\n' :: (g2 ++ pass6F n rest)
      | none => c :: pass6F n cs
    else c :: pass6F n cs

def pass6 (l : List Char) : List Char := pass6F l.length l

/-- Matcher for `[A-Z][a-z]+` (one capital, then a maximal nonempty
lowercase run).  Returns (word, rest). -/
def capWord : List Char → Option (List Char × List Char)
  | c :: cs =>
    if c.isUpper then
      let low := cs.takeWhile Char.isLower
      if low.isEmpty then none else some (c :: low, cs.drop low.length)
    else none
  | [] => none

/-- Pass 7 helper (fueled), entered after a capitalized word: matches
`(?:\s+[A-Z][a-z]+)*:`.  The star is effectively deterministic: a colon
stops it, whitespace forces another word, anything else fails every
backtracking alternative.  Returns (matched text including `:`, rest). -/
def colonChainF : Nat → List Char → Option (List Char × List Char)
  | _, ':' :: rest => some ([':'], rest)
  | 0, _ => none
  | n + 1, l =>
    let w := l.takeWhile jsWsB
    if w.isEmpty then none
    else
      match capWord (l.drop w.length) with
      | some (wd, r1) =>
        match colonChainF n r1 with
        | some (m, rest) => some (w ++ wd ++ m, rest)
        | none => none
      | none => none

/-- Pass 7 matcher, for the text after the punctuation:
`\s*([A-Z][a-z]+(?:\s+[A-Z][a-z]+)*:)`.  Returns (group `$2`, rest). -/
def matchColonHeading (l : List Char) : Option (List Char × List Char) :=
  let w := l.takeWhile jsWsB
  match capWord (l.drop w.length) with
  | some (wd, r1) =>
    match colonChainF r1.length r1 with
    | some (m, rest) => some (wd ++ m, rest)
    | none => none
  | none => none

/-- Pass 7 (fueled):
`.replace(/([.!?])\s*([A-Z][a-z]+(?:\s+[A-Z][a-z]+)*:)/g, '$1\n\n$2')` —
break before colon-terminated subheadings. -/
def pass7F : Nat → List Char → List Char
  | 0, l => l
  | _ + 1, [] => []
  | n + 1, c :: cs =>
    if isPunctB c then
      match matchColonHeading cs with
      | some (g2, rest) => c :: '\n' :: '\n' :: (g2 ++ pass7F n rest)
      | none => c :: pass7F n cs
    else c :: pass7F n cs

def pass7 (l : List Char) : List Char := pass7F l.length l

/-- Pass 8 matcher, for the text after the closing parenthesis:
`\s*([A-Z][a-z]+\s+[A-Z])`.  Returns (group `$1`, rest). -/
def matchParenTitle (l : List Char) : Option (List Char × List Char) :=
  let w := l.takeWhile jsWsB
  match capWord (l.drop w.length) with
  | some (wd, r1) =>
    let w2 := r1.takeWhile jsWsB
    if w2.isEmpty then none
    else
      match r1.drop w2.length with
      | u :: rest => if u.isUpper then some (wd ++ w2 ++ [u], rest) else none
      | [] => none
  | none => none

/-- Pass 8 (fueled):
`.replace(/\)\s*([A-Z][a-z]+\s+[A-Z])/g, ')\n\n$1')` — break after a
closing parenthesis followed by a capitalized multi-word phrase. -/
def pass8F : Nat → List Char → List Char
  | 0, l => l
  | _ + 1, [] => []
  | n + 1, c :: cs =>
    if c = ')' then
      match matchParenTitle cs with
      | some (g1, rest) => ')' :: '\n' :: '\n' :: (g1 ++ pass8F n rest)
      | none => c :: pass8F n cs
    else c :: pass8F n cs

def pass8 (l : List Char) : List Char := pass8F l.length l

/-- Pass 9 matcher, for the text after the punctuation:
`\s*(Article\s+\d+)`.  Returns (group `$2`, rest). -/
def matchArticleRef (l : List Char) : Option (List Char × List Char) :=
  let w := l.takeWhile jsWsB
  match l.drop w.length with
  | 'A' :: 'r' :: 't' :: 'i' :: 'c' :: 'l' :: 'e' :: r1 =>
    let w2 := r1.takeWhile jsWsB
    if w2.isEmpty then none
    else
      let r2 := r1.drop w2.length
      let ds := r2.takeWhile Char.isDigit
      if ds.isEmpty then none
      else some ("Article".data ++ w2 ++ ds, r2.drop ds.length)
  | _ => none

/-- Pass 9 (fueled):
`.replace(/([.!?])\s*(Article\s+\d+)/g, '$1\n\n$2')` — break between
"Article X" references. -/
def pass9F : Nat → List Char → List Char
  | 0, l => l
  | _ + 1, [] => []
  | n + 1, c :: cs =>
    if isPunctB c then
      match matchArticleRef cs with
      | some (g2, rest) => c :: '\n' :: '\n' :: (g2 ++ pass9F n rest)
      | none => c :: pass9F n cs
    else c :: pass9F n cs

def pass9 (l : List Char) : List Char := pass9F l.length l

/-- The fixed exclusion list of common sentence-continuation words kept
attached to the previous sentence by pass 10 (`connectors` in the
source). -/
def connectors : List (List Char) :=
  ["The", "This", "That", "These", "Those", "A", "An", "In", "On", "At",
   "From", "For", "And", "But", "Or", "As", "It", "Its"].map String.data ++
  [['I', 't', '\'', 's']] ++
  ["If", "When", "While", "To", "By"].map String.data

/-- Head and tail of a character list, as an option. -/
def headRest : List Char → Option (Char × List Char)
  | [] => none
  | c :: rest => some (c, rest)

/-- First two characters and the remainder, as an option. -/
def firstTwo : List Char → Option (Char × Char × List Char)
  | i :: s :: rest => some (i, s, rest)
  | _ => none

/-- Pass 10 matcher, for the text after the punctuation:
`\s+([A-Z](?:[a-z]+|I)\s)`.  Returns (matched whitespace, group `$2`
— the capitalized word including its single trailing whitespace
character — and the rest). -/
def matchSentenceStart (l : List Char) : Option (List Char × List Char × List Char) :=
  let w := l.takeWhile jsWsB
  if w.isEmpty then none
  else
    match headRest (l.drop w.length) with
    | some (u, r1) =>
      if u.isUpper then
        let low := r1.takeWhile Char.isLower
        if low.isEmpty then
          match firstTwo r1 with
          | some (i, s, rest) =>
            if i = 'I' && jsWsB s then some (w, (u :: i :: [s], rest)) else none
          | none => none
        else
          match headRest (r1.drop low.length) with
          | some (s, rest) => if jsWsB s then some (w, ((u :: low) ++ [s], rest)) else none
          | none => none
      else none
    | none => none

/-- Pass 10 (fueled): the main sentence-boundary pass,
`.replace(/([.!?])\s+([A-Z](?:[a-z]+|I)\s)/g, fn)` — after
sentence-ending punctuation and before a capitalized word a paragraph
break is inserted, unless the word (trimmed) is in the `connectors`
exclusion list, in which case the match is returned unchanged. -/
def pass10F : Nat → List Char → List Char
  | 0, l => l
  | _ + 1, [] => []
  | n + 1, c :: cs =>
    if isPunctB c then
      match matchSentenceStart cs with
      | some (w, nw, rest) =>
        if connectors.contains (jsTrim nw) then c :: (w ++ nw ++ pass10F n rest)
        else c :: '\n' :: '\n' :: (nw ++ pass10F n rest)
      | none => c :: pass10F n cs
    else c :: pass10F n cs

def pass10 (l : List Char) : List Char := pass10F l.length l

/-- The full text-formatting pipeline of `parseSummary` (source lines
73–102): normalization followed by the five paragraph-break passes, in
source order. -/
def formattedChars (l : List Char) : List Char :=
  pass10 (pass9 (pass8 (pass7 (pass6 (normalizeChars l)))))

example : pass10 "It ended. Sources said so.".data = "It ended.\n\nSources said so.".data := by
  decide
example : pass10 "It ended. The next day.".data = "It ended. The next day.".data := by decide
example :
    formattedChars "## Summary\nThings happened. 1. First point here. 2. Second point here.".data =
      "## Summary\nThings happened.\n\n1.\n\nFirst point here.\n\n2.\n\nSecond point here.".data := by
  decide

/-- Lazy-dot fragment `(.+?)\n` of the header pattern: a nonempty run of
non-line-terminator characters whose first following line terminator is
exactly a newline.  Returns (title text, rest after the newline). -/
def tryDots (l : List Char) : Option (List Char × List Char) :=
  let t := l.takeWhile dotB
  if t.isEmpty then none
  else
    match l.drop t.length with
    | c :: r => if c = '\n' then some (t, r) else none
    | [] => none

/-- Backtracking over the greedy `\s*` of the header pattern: try the
whitespace run length `k` first (the maximal run), then shorter runs,
each followed by `(.+?)\n`.  Returns (matched text, title, rest). -/
def wsBacktrackF : Nat → List Char → Option (List Char × List Char × List Char)
  | 0, l =>
    match tryDots l with
    | some (t, r) => some (t ++ ['\n'], t, r)
    | none => none
  | k + 1, l =>
    match tryDots (l.drop (k + 1)) with
    | some (t, r) => some (l.take (k + 1) ++ t ++ ['\n'], t, r)
    | none => wsBacktrackF k l

/-- One attempt of the header alternation
`(?:##\s*(.+?)|(\d+)\.\s*(.+?))\n` at the current position (the `(?:^|\n)`
anchor is handled by the scanner).  Returns (matched text, title, rest).
The `##` branch is the first alternative; since it starts with `#` and
the numbered branch with a digit, at most one can apply. -/
def headerCore (l : List Char) : Option (List Char × List Char × List Char) :=
  if isPrefixB ['#', '#'] l then
    match wsBacktrackF ((l.drop 2).takeWhile jsWsB).length (l.drop 2) with
    | some (m, t, r) => some ('#' :: '#' :: m, t, r)
    | none => none
  else
    let ds := l.takeWhile Char.isDigit
    if ds.isEmpty then none
    else
      match l.drop ds.length with
      | c :: r2 =>
        if c = '.' then
          match wsBacktrackF (r2.takeWhile jsWsB).length r2 with
          | some (m, t, r) => some (ds ++ '.' :: m, t, r)
          | none => none
        else none
      | [] => none

/-- The header scan (fueled): `formatted.matchAll(headerPattern)` for
`/(?:^|\n)(?:##\s*(.+?)|(\d+)\.\s*(.+?))\n/g`.  `atStart` tracks whether
the zero-width `^` alternative can still apply (only at index 0); the
`\n` alternative consumes the newline.  Produces the list of matches as
(index, length of the full match, title group). -/
def scanHeadersF : Nat → List Char → Nat → Bool → List (Nat × Nat × List Char)
  | 0, _, _, _ => []
  | _ + 1, [], _, _ => []
  | n + 1, c :: cs, pos, atStart =>
    match (if atStart then headerCore (c :: cs) else none) with
    | some (m, t, r) => (pos, m.length, t) :: scanHeadersF n r (pos + m.length) false
    | none =>
      if c = '\n' then
        match headerCore cs with
        | some (m, t, r) => (pos, m.length + 1, t) :: scanHeadersF n r (pos + 1 + m.length) false
        | none => scanHeadersF n cs (pos + 1) false
      else scanHeadersF n cs (pos + 1) false

def scanHeaders (l : List Char) : List (Nat × Nat × List Char) := scanHeadersF l.length l 0 true

example : scanHeaders "## A\nB\n".data = [(0, 5, "A".data)] := by decide
example : scanHeaders "x\n## A\n## B\n".data = [(1, 6, "A".data)] := by decide
example : scanHeaders "abc\n## Trailing".data = [] := by decide

/-- A display section: the unit produced by `parseSummary`. -/
structure Sec where
  title : String
  content : String
  key : String
deriving DecidableEq, Repr

/-- Section-key classification from the title (source lines 133–144):
case-insensitive substring matching in priority order. -/
def classifyKey (title : List Char) : String :=
  let lowerTitle := title.map Char.toLower
  if isSubstr "summary".data lowerTitle || isSubstr "comprehensive".data lowerTitle then
    "comprehensive"
  else if isSubstr "context".data lowerTitle || isSubstr "background".data lowerTitle then
    "context"
  else if isSubstr "mean".data lowerTitle || isSubstr "matter".data lowerTitle ||
      isSubstr "why".data lowerTitle then
    "meaning"
  else if isSubstr "related".data lowerTitle || isSubstr "bigger".data lowerTitle ||
      isSubstr "picture".data lowerTitle then
    "related"
  else "other"

/-- The per-match loop of `parseSummary` (source lines 126–151): each
section's content is `formatted.slice(startIdx, endIdx).trim()` with
`startIdx` the end of the match and `endIdx` the start of the next match
(or the end of the text). -/
def sectionsLoop (f : List Char) : List (Nat × Nat × List Char) → List Sec
  | [] => []
  | (i, n, t) :: ms =>
    let endIdx := match ms with | [] => f.length | (i2, _, _) :: _ => i2
    ⟨String.mk (jsTrim t), String.mk (jsTrim ((f.take endIdx).drop (i + n))), classifyKey t⟩ ::
      sectionsLoop f ms

/-- The section-building part of `parseSummary` (source lines 104–163),
taking the already-formatted text: scan for header matches, emit a
substantial pre-header chunk as a "Comprehensive Summary" section, one
section per header, and fall back to a single "Analysis" section when
nothing was found. -/
def parseSummaryCore (f : List Char) : List Sec :=
  let ms := scanHeaders f
  let pre : List Sec :=
    match ms with
    | [] => []
    | (i0, _, _) :: _ =>
      if 0 < i0 then
        let preContent := jsTrim (f.take i0)
        if 50 < preContent.length then
          [⟨"Comprehensive Summary", String.mk preContent, "comprehensive"⟩]
        else []
      else []
  let sections := pre ++ sectionsLoop f ms
  if sections.isEmpty then [⟨"Analysis", String.mk f, "comprehensive"⟩] else sections

/-- The `parseSummary` function (source lines 71–164): format the text,
then build the sections. -/
def parseSummary (s : String) : List Sec :=
  parseSummaryCore (formattedChars s.data)

example :
    parseSummary "## Summary\nThings happened. 1. First point here. 2. Second point here." =
      [⟨"Summary", "Things happened.", "comprehensive"⟩,
       ⟨"First point here.", "2.\n\nSecond point here.", "other"⟩] := by
  decide

example : parseSummary "Hello world" = [⟨"Analysis", "Hello world", "comprehensive"⟩] := by
  decide

example : parseSummary "## A\nB\n" = [⟨"A", "B", "other"⟩] := by decide

/-!  The expanded-sections disclosure state (`NewspaperDetail` lines
39–68, 269–310).  The component keeps a JS `Set` of section keys; a
rendered section is expanded iff its key is in the set.  The set is
modelled as a `Finset String`. -/

/-- Initial expanded state: only the `comprehensive` key (line 40). -/
def initialExpanded : Finset String := {"comprehensive"}

/-- The `toggleSection` handler (lines 58–68): delete the key if
present, insert it otherwise. -/
def toggleSection (sectionKey : String) (prev : Finset String) : Finset String :=
  if sectionKey ∈ prev then prev.erase sectionKey else insert sectionKey prev

/-- Rendering of the collapsible sections (lines 269–310): each section
is rendered expanded iff `expandedSections.has(section.key)`. -/
def renderedStates (secs : List Sec) (expanded : Finset String) : List Bool :=
  secs.map fun sec => decide (sec.key ∈ expanded)

/-!  The inline reference highlighter `processChildren` (lines 174–203).
React children values are modelled by `Child`: a plain string, the
highlighter's own styled span (an element, so it has `props`), an array
of children, or any other React element (also with `props`;
`processChildren` returns those unchanged without recursing into them). -/

mutual

inductive Child : Type where
  | text : List Char → Child
  | hspan : List Char → Child
  | arr : ChildList → Child
  | node : List Char → ChildList → Child

inductive ChildList : Type where
  | nil : ChildList
  | cons : Child → ChildList → ChildList

end

/-- Build a children array from a plain list (for writing examples). -/
def childrenOf : List Child → ChildList
  | [] => ChildList.nil
  | c :: cs => ChildList.cons c (childrenOf cs)

/-- First alternative of the article pattern: `\(Article \d+\)`. -/
def articleAlt1 (l : List Char) : Option (List Char × List Char) :=
  if isPrefixB "(Article ".data l then
    let r := l.drop 9
    let ds := r.takeWhile Char.isDigit
    if ds.isEmpty then none
    else
      match r.drop ds.length with
      | c :: rest => if c = ')' then some ("(Article ".data ++ ds ++ [')'], rest) else none
      | [] => none
  else none

/-- Second alternative: `Article \d+`. -/
def articleAlt2 (l : List Char) : Option (List Char × List Char) :=
  if isPrefixB "Article ".data l then
    let r := l.drop 8
    let ds := r.takeWhile Char.isDigit
    if ds.isEmpty then none else some ("Article ".data ++ ds, r.drop ds.length)
  else none

/-- Optional tail `(?:\s*&\s*\d+)` of the third alternative. -/
def ampTail (l : List Char) : Option (List Char × List Char) :=
  let w := l.takeWhile jsWsB
  match l.drop w.length with
  | c :: r =>
    if c = '&' then
      let w2 := r.takeWhile jsWsB
      let r2 := r.drop w2.length
      let ds := r2.takeWhile Char.isDigit
      if ds.isEmpty then none else some (w ++ '&' :: (w2 ++ ds), r2.drop ds.length)
    else none
  | [] => none

/-- Digits-and-optional-`&`-group tail of the third alternative. -/
def articleAlt3Tail (pre : List Char) (r2 : List Char) : Option (List Char × List Char) :=
  let ds := r2.takeWhile Char.isDigit
  if ds.isEmpty then none
  else
    let r3 := r2.drop ds.length
    match ampTail r3 with
    | some (amp, rest) => some (pre ++ ds ++ amp, rest)
    | none => some (pre ++ ds, r3)

/-- Third alternative: `Articles? \d+(?:\s*&\s*\d+)?`.  The greedy `s?`
takes the `s` exactly when the text starts with "Articles " (then the
literal space it needs follows); the optional `&` group is taken when it
matches. -/
def articleAlt3 (l : List Char) : Option (List Char × List Char) :=
  if isPrefixB "Articles ".data l then articleAlt3Tail "Articles ".data (l.drop 9)
  else if isPrefixB "Article ".data l then articleAlt3Tail "Article ".data (l.drop 8)
  else none

/-- The article reference pattern
`\(Article \d+\)|Article \d+|Articles? \d+(?:\s*&\s*\d+)?` at the
current position: JS alternation takes the first alternative that
matches. -/
def matchArticle (l : List Char) : Option (List Char × List Char) :=
  match articleAlt1 l with
  | some x => some x
  | none =>
    match articleAlt2 l with
    | some x => some x
    | none => articleAlt3 l

/-- `articlePattern.test(s)`: does the pattern match anywhere? -/
def testArticle : List Char → Bool
  | [] => false
  | c :: cs => (matchArticle (c :: cs)).isSome || testArticle cs

/-- `String.prototype.split` with the capturing article pattern
(fueled): alternating list of gaps and matches, beginning and ending
with a (possibly empty) gap. -/
def splitArticleF : Nat → List Char → List Char → List (List Char)
  | 0, acc, l => [acc ++ l]
  | _ + 1, acc, [] => [acc]
  | n + 1, acc, c :: cs =>
    match matchArticle (c :: cs) with
    | some (m, rest) => acc :: m :: splitArticleF n [] rest
    | none => splitArticleF n (acc ++ [c]) cs

def splitArticle (l : List Char) : List (List Char) := splitArticleF l.length [] l

/-- Splitting a string on the article pattern and wrapping the matching
parts as styled spans (the body of the string case of
`processChildren`). -/
def splitParts (s : List Char) : ChildList :=
  childrenOf ((splitArticle s).map fun part =>
    if testArticle part then Child.hspan part else Child.text part)

mutual

/-- The `processChildren` helper (lines 174–203): a string with a
pattern match is split into parts, matching parts are wrapped in a
styled span; arrays are mapped recursively; React elements (anything
with `props`, including already-created highlight spans) are returned
unchanged. -/
def processChildren : Child → Child
  | Child.text s => if testArticle s then Child.arr (splitParts s) else Child.text s
  | Child.hspan s => Child.hspan s
  | Child.arr cs => Child.arr (processList cs)
  | Child.node tag cs => Child.node tag cs

/-- Recursive mapping of `processChildren` over an array of children. -/
def processList : ChildList → ChildList
  | ChildList.nil => ChildList.nil
  | ChildList.cons c cs => ChildList.cons (processChildren c) (processList cs)

end

example :
    processChildren (Child.text "Article 3 and (Article 5) reported X.".data) =
      Child.arr (childrenOf
        [Child.text [], Child.hspan "Article 3".data, Child.text " and ".data,
         Child.hspan "(Article 5)".data, Child.text " reported X.".data]) := by
  rfl

example : splitArticle "Articles 3 & 4 agree".data =
    [[], "Articles 3 & 4".data, " agree".data] := by decide

/-!  Auxiliary definitions used by theorem statements. -/

/-- Does a character list contain three consecutive newlines? -/
def hasTriple : List Char → Bool
  | [] => false
  | c :: cs => (c = '\n' && isPrefixB ['\n', '\n'] cs) || hasTriple cs

/-- For each header match, the pair (matched heading text, raw section
content): the slice of the formatted text from the end of this match to
the start of the next (or the end of the text), exactly the index
arithmetic of the `parseSummary` loop before trimming. -/
def segPairs (f : List Char) : List (Nat × Nat × List Char) → List (List Char × List Char)
  | [] => []
  | (i, n, _) :: ms =>
    let endIdx := match ms with | [] => f.length | (i2, _, _) :: _ => i2
    ((f.drop i).take n, (f.take endIdx).drop (i + n)) :: segPairs f ms

/-- The text before the first header match (all of `f` when there is no
match). -/
def preTake (f : List Char) : List (Nat × Nat × List Char) → List Char
  | [] => f
  | (i, _, _) :: _ => f.take i

/-- The formatted text with exactly the header-marker matches removed. -/
def stripHeaderMarkers (f : List Char) : List Char :=
  preTake f (scanHeaders f) ++ (List.map (·.2) (segPairs f (scanHeaders f))).flatten

/-- The match spans (index, length) are ordered, disjoint and contained
in `[lo, hi)`, each span starting no earlier than `lo`. -/
def Chained (lo hi : Nat) : List (Nat × Nat × List Char) → Prop
  | [] => True
  | (i, n, _) :: ms => lo ≤ i ∧ i + n ≤ hi ∧ Chained (i + n) hi ms

/-!  Claim theorems. -/

/-- C2 (counterexample): on the end-to-end example input the two
sections' contents are "Things happened." and "2.\n\nSecond point
here."; the second section's content does not start at the `1.` marker
(indeed `1.` is not a prefix of it) — the `1.` marker text was consumed
as the second section's heading. -/
theorem c2_counterexample :
    (parseSummary
        "## Summary\nThings happened. 1. First point here. 2. Second point here.").map
        Sec.content = ["Things happened.", "2.\n\nSecond point here."] ∧
    isPrefixB "1.".data "2.\n\nSecond point here.".data = false := by
  decide

/-- C2 (amended): the example input yields exactly two sections, the
first `{key: comprehensive, title: "Summary", content: "Things
happened."}` as claimed; but the second is titled "First point here."
(the text of the `1.` numbered heading, consumed as a heading marker)
with key `other` and content "2.\n\nSecond point here." starting after
the `2.` marker line. -/
theorem c2_parse_example :
    parseSummary "## Summary\nThings happened. 1. First point here. 2. Second point here." =
      [⟨"Summary", "Things happened.", "comprehensive"⟩,
       ⟨"First point here.", "2.\n\nSecond point here.", "other"⟩] := by
  decide

/-- C4 (counterexample): the input "## Context\nAAA\n## Background\nBBB"
parses to two sections that share the key `context`.  Rendered state is
looked up by key, so toggling the first section's key flips the rendered
expanded state of the second section as well — toggling is not
independent per section. -/
theorem c4_counterexample :
    (parseSummary "## Context\nAAA\n## Background\nBBB").map Sec.key =
      ["context", "context"] ∧
    renderedStates (parseSummary "## Context\nAAA\n## Background\nBBB") initialExpanded =
      [false, false] ∧
    renderedStates (parseSummary "## Context\nAAA\n## Background\nBBB")
        (toggleSection "context" initialExpanded) = [true, true] := by
  decide

/-- C4 (amended): toggling a section's key flips the rendered expanded
state of exactly the sections bearing that key: a section whose key
differs from the toggled key keeps its state, and a section with the
toggled key has its state inverted.  In particular, when keys are
pairwise distinct, toggling affects only the toggled section. -/
theorem c4_toggle_by_key (expanded : Finset String) (k : String) (sec : Sec) :
    (sec.key ≠ k → (sec.key ∈ toggleSection k expanded ↔ sec.key ∈ expanded)) ∧
    (sec.key = k → (sec.key ∈ toggleSection k expanded ↔ sec.key ∉ expanded)) := by
  unfold toggleSection
  constructor
  · intro hne
    by_cases hk : k ∈ expanded <;> simp [hk, Finset.mem_erase, Finset.mem_insert, hne]
  · intro he
    subst he
    by_cases hk : sec.key ∈ expanded <;> simp [hk, Finset.mem_erase, Finset.mem_insert]

/-- C4 (witness): concrete instance of `c4_toggle_by_key` at key
`context` and a section keyed `other`. -/
theorem c4_toggle_by_key_witness :
    ("other" : String) ≠ "context" ∧
    (("other" : String) ∈ toggleSection "context" initialExpanded ↔
      ("other" : String) ∈ initialExpanded) :=
  ⟨by decide,
   (c4_toggle_by_key initialExpanded "context" ⟨"T", "C", "other"⟩).1 (by decide)⟩

/-- C6: when the header pattern finds no match in the formatted text,
`parseSummary` returns exactly one section, keyed `comprehensive`,
titled "Analysis", whose content is the entire formatted text. -/
theorem c6_no_heading_fallback (s : String)
    (h : scanHeaders (formattedChars s.data) = []) :
    parseSummary s = [⟨"Analysis", String.mk (formattedChars s.data), "comprehensive"⟩] := by
  simp only [parseSummary, parseSummaryCore]
  rw [h]
  rfl

/-- C6 (witness): the input "Hello world" has no header match and
produces the single fallback section. -/
theorem c6_no_heading_fallback_witness :
    scanHeaders (formattedChars "Hello world".data) = [] ∧
    parseSummary "Hello world" =
      [⟨"Analysis", String.mk (formattedChars "Hello world".data), "comprehensive"⟩] :=
  ⟨by decide, c6_no_heading_fallback "Hello world" (by decide)⟩

/-- C7: the highlighter on "Article 3 and (Article 5) reported X."
produces exactly the segment sequence plain(""),
highlighted("Article 3"), plain(" and "), highlighted("(Article 5)"),
plain(" reported X."), and the segments' text concatenates back to the
input string. -/
theorem c7_highlighter_example :
    processChildren (Child.text "Article 3 and (Article 5) reported X.".data) =
      Child.arr (childrenOf
        [Child.text [], Child.hspan "Article 3".data, Child.text " and ".data,
         Child.hspan "(Article 5)".data, Child.text " reported X.".data]) ∧
    List.flatten [[], "Article 3".data, " and ".data, "(Article 5)".data,
        " reported X.".data] =
      "Article 3 and (Article 5) reported X.".data := by
  exact ⟨rfl, rfl⟩

/-!  Helper lemmas for the normalization invariants (claim C3). -/

theorem dropWhile_len_le (p : Char → Bool) (l : List Char) :
    (l.dropWhile p).length ≤ l.length :=
  (List.dropWhile_suffix p).length_le

theorem wsThenBackslash_length : ∀ {l rest : List Char},
    wsThenBackslash l = some rest → rest.length < l.length := by
  intro l
  induction l with
  | nil => intro rest h; simp [wsThenBackslash] at h
  | cons c cs ih =>
    intro rest h
    simp only [wsThenBackslash] at h
    split at h
    · cases h; simp
    · split at h
      · exact Nat.lt_trans (ih h) (by simp)
      · cases h

theorem wsThenBackslash_none_not_bs {c : Char} {cs : List Char}
    (h : wsThenBackslash (c :: cs) = none) : c ≠ '\\' := by
  intro hc
  subst hc
  simp [wsThenBackslash] at h

/-- Pass 3 removes every backslash: any position holding a backslash is
the backslash of a match there. -/
theorem pass3F_no_backslash : ∀ (n : Nat) (l : List Char), l.length ≤ n →
    '\\' ∉ pass3F n l := by
  intro n
  induction n with
  | zero =>
    intro l hl
    have : l = [] := List.eq_nil_of_length_eq_zero (Nat.le_zero.mp hl)
    subst this
    simp [pass3F]
  | succ n ih =>
    intro l hl
    match l with
    | [] => simp [pass3F]
    | c :: cs =>
      simp only [pass3F]
      cases h : wsThenBackslash (c :: cs) with
      | some rest =>
        have hr : rest.length < (c :: cs).length := wsThenBackslash_length h
        have hd : (rest.dropWhile jsWsB).length ≤ n := by
          have h1 := dropWhile_len_le jsWsB rest
          simp only [List.length_cons] at hr hl
          omega
        simp only [List.mem_cons]
        rintro (h1 | h1)
        · cases h1
        · exact ih _ hd h1
      | none =>
        simp only [List.mem_cons]
        rintro (h1 | h1)
        · exact wsThenBackslash_none_not_bs h h1.symm
        · exact ih cs (by simp at hl; omega) h1

/-- Pass 4 only ever emits newlines or characters of its input. -/
theorem pass4_mem : ∀ (l : List Char) (x : Char), x ∈ pass4 l → x ∈ l ∨ x = '\n' := by
  intro l
  induction l using pass4.induct with
  | case1 => intro x hx; simp [pass4] at hx
  | case2 c => intro x hx; simp [pass4] at hx; simp [hx]
  | case3 c d rest hcd ih =>
    intro x hx
    rw [pass4, if_pos hcd] at hx
    simp only [List.mem_cons] at hx
    rcases hx with h | h
    · right; exact h
    · rcases ih x h with h' | h'
      · left; simp [h']
      · right; exact h'
  | case4 c d rest hcd ih =>
    intro x hx
    rw [pass4, if_neg hcd] at hx
    simp only [List.mem_cons] at hx
    rcases hx with h | h
    · left; simp [h]
    · rcases ih x h with h' | h'
      · left; simp only [List.mem_cons] at h' ⊢; tauto
      · right; exact h'

/-- Pass 5 only ever emits newlines or characters of its input. -/
theorem pass5F_mem : ∀ (n : Nat) (l : List Char) (x : Char),
    x ∈ pass5F n l → x ∈ l ∨ x = '\n' := by
  intro n
  induction n with
  | zero => intro l x hx; left; simpa [pass5F] using hx
  | succ n ih =>
    intro l x hx
    match l with
    | [] => simp [pass5F] at hx
    | c :: cs =>
      simp only [pass5F] at hx
      split at hx
      · simp only [List.mem_cons] at hx
        rcases hx with h | h | h
        · right; exact h
        · right; exact h
        · rcases ih _ x h with h' | h'
          · left
            have h2 : x ∈ cs.drop 2 := (List.dropWhile_suffix _).subset h'
            exact List.mem_cons_of_mem c (List.drop_subset 2 cs h2)
          · right; exact h'
      · simp only [List.mem_cons] at hx
        rcases hx with h | h
        · left; simp [h]
        · rcases ih cs x h with h' | h'
          · left; exact List.mem_cons_of_mem c h'
          · right; exact h'

theorem two_nl_false_of_one {l : List Char} (h : isPrefixB ['\n'] l = false) :
    isPrefixB ['\n', '\n'] l = false := by
  cases l with
  | nil => simp [isPrefixB]
  | cons c cs =>
    simp only [isPrefixB, Bool.and_eq_false_iff] at h ⊢
    rcases h with h | h
    · left; exact h
    · cases h

theorem dropWhile_nl_head (l : List Char) :
    isPrefixB ['\n'] (l.dropWhile (· = '\n')) = false := by
  induction l with
  | nil => simp [isPrefixB]
  | cons c cs ih =>
    by_cases hc : c = '\n'
    · simpa [List.dropWhile, hc] using ih
    · simp [List.dropWhile, hc, isPrefixB, Ne.symm hc]

theorem pass5F_nil (n : Nat) : pass5F n [] = [] := by
  cases n <;> simp [pass5F]

theorem pass5F_keeps_head {l : List Char} (n : Nat) (h : isPrefixB ['\n'] l = false) :
    isPrefixB ['\n'] (pass5F n l) = false := by
  cases l with
  | nil => simp [pass5F_nil, isPrefixB]
  | cons c cs =>
    have hc : c ≠ '\n' := by
      intro hc
      subst hc
      simp [isPrefixB] at h
    cases n with
    | zero => simp [pass5F, isPrefixB, Ne.symm hc]
    | succ m => simp [pass5F, hc, isPrefixB, Ne.symm hc]

theorem pass5F_keeps_two {l : List Char} (n : Nat) (h : isPrefixB ['\n', '\n'] l = false) :
    isPrefixB ['\n', '\n'] (pass5F n l) = false := by
  cases l with
  | nil => simp [pass5F_nil, isPrefixB]
  | cons d ds =>
    by_cases hd : d = '\n'
    · subst hd
      have h1 : isPrefixB ['\n'] ds = false := by
        simpa [isPrefixB] using h
      cases n with
      | zero => simp [pass5F, isPrefixB, h1]
      | succ m =>
        have h2 : isPrefixB ['\n', '\n'] ds = false := two_nl_false_of_one h1
        simp [pass5F, h2, isPrefixB, pass5F_keeps_head m h1]
    · cases n with
      | zero => simp [pass5F, isPrefixB, Ne.symm hd]
      | succ m => simp [pass5F, hd, isPrefixB, Ne.symm hd]

/-- Pass 5 output never contains three consecutive newlines. -/
theorem pass5F_no_triple : ∀ (n : Nat) (l : List Char), l.length ≤ n →
    hasTriple (pass5F n l) = false := by
  intro n
  induction n with
  | zero =>
    intro l hl
    have : l = [] := List.eq_nil_of_length_eq_zero (Nat.le_zero.mp hl)
    subst this
    simp [pass5F, hasTriple]
  | succ n ih =>
    intro l hl
    match l with
    | [] => simp [pass5F, hasTriple]
    | c :: cs =>
      simp only [pass5F]
      by_cases hcond : (c = '\n' && isPrefixB ['\n', '\n'] cs) = true
      · rw [if_pos hcond]
        simp only [Bool.and_eq_true, decide_eq_true_eq] at hcond
        obtain ⟨hc, htwo⟩ := hcond
        subst hc
        obtain ⟨cs', hcs⟩ : ∃ cs', cs = '\n' :: '\n' :: cs' := by
          cases cs with
          | nil => simp [isPrefixB] at htwo
          | cons a as =>
            cases as with
            | nil =>
              simp only [isPrefixB, Bool.and_eq_true] at htwo
              exact absurd htwo.2 (by simp [isPrefixB])
            | cons b bs =>
              simp only [isPrefixB, Bool.and_eq_true, decide_eq_true_eq] at htwo
              exact ⟨bs, by simp [← htwo.1, ← htwo.2.1]⟩
        subst hcs
        simp only [List.drop_succ_cons, List.drop_zero]
        have hhead : isPrefixB ['\n'] (cs'.dropWhile (· = '\n')) = false := dropWhile_nl_head _
        have hlen : (cs'.dropWhile (· = '\n')).length ≤ n := by
          have h1 := dropWhile_len_le (· = '\n') cs'
          simp only [List.length_cons] at hl
          omega
        have hout := pass5F_keeps_head n hhead
        have htrip := ih _ hlen
        simp only [hasTriple, isPrefixB, Bool.and_true, Bool.or_eq_false_iff]
        refine ⟨by simp [hout], ?_, ?_⟩
        · simp [two_nl_false_of_one hout]
        · exact htrip
      · rw [if_neg hcond]
        have hcs : cs.length ≤ n := by
          simp only [List.length_cons] at hl
          omega
        have htrip := ih cs hcs
        simp only [hasTriple, Bool.or_eq_false_iff]
        refine ⟨?_, htrip⟩
        by_cases hc : c = '\n'
        · subst hc
          have htwo : isPrefixB ['\n', '\n'] cs = false := by
            by_contra h2
            rw [Bool.not_eq_false] at h2
            exact hcond (by simp [h2])
          simp [pass5F_keeps_two n htwo]
        · simp [hc]

/-- The normalized text never contains a backslash nor three
consecutive newlines. -/
theorem normalize_no_backslash_no_triple (l : List Char) :
    '\\' ∉ normalizeChars l ∧ hasTriple (normalizeChars l) = false := by
  constructor
  · intro hmem
    unfold normalizeChars pass5 at hmem
    rcases pass5F_mem _ _ _ hmem with h | h
    · rcases pass4_mem _ _ h with h2 | h2
      · unfold pass3 at h2
        exact pass3F_no_backslash _ _ le_rfl h2
      · cases h2
    · cases h
  · unfold normalizeChars pass5
    exact pass5F_no_triple _ _ le_rfl

/-- C3 (counterexample): the input "a\b" has its backslash removed
(replaced by a space) although neither neighbour is whitespace — the
normalization stage removes stray backslashes unconditionally, not
"only when surrounded by whitespace". -/
theorem c3_counterexample :
    normalizeChars "a\\b".data = "a b".data ∧ jsWsB 'a' = false ∧ jsWsB 'b' = false := by
  decide

/-- C3 (amended): the normalization stage rewrites literal backslash-n
escapes to real line breaks and CR+LF pairs to LF by leftmost
non-overlapping single passes, and removes every backslash — together
with any adjacent whitespace, each occurrence is replaced by a single
space even when not surrounded by whitespace — so its output never
contains a backslash; and newline runs collapse so that the output never
contains three consecutive newlines. -/
theorem c3_normalize_amended (s : String) :
    '\\' ∉ normalizeChars s.data ∧ hasTriple (normalizeChars s.data) = false :=
  normalize_no_backslash_no_triple s.data

/-!  Structure of the header matches (claims C1 and C10). -/

theorem isPrefixB_decomp : ∀ {p l : List Char}, isPrefixB p l = true → ∃ u, l = p ++ u := by
  intro p
  induction p with
  | nil => intro l _; exact ⟨l, rfl⟩
  | cons a as ih =>
    intro l h
    cases l with
    | nil => simp [isPrefixB] at h
    | cons c cs =>
      simp only [isPrefixB, Bool.and_eq_true, decide_eq_true_eq] at h
      obtain ⟨rfl, h2⟩ := h
      obtain ⟨u, hu⟩ := ih h2
      exact ⟨u, by simp [hu]⟩

theorem takeWhile_drop_decomp (p : Char → Bool) (l : List Char) :
    l = l.takeWhile p ++ l.drop (l.takeWhile p).length := by
  obtain ⟨u, hu⟩ := List.takeWhile_prefix p (l := l)
  have hd : l.drop (l.takeWhile p).length = u := by
    have h2 : (l.takeWhile p ++ u).drop (l.takeWhile p).length = u := List.drop_left _ _
    rwa [hu] at h2
  rw [hd]
  exact hu.symm

theorem tryDots_decomp : ∀ {l t r : List Char}, tryDots l = some (t, r) →
    l = t ++ '\n' :: r := by
  intro l t r h
  simp only [tryDots] at h
  split at h
  · cases h
  · rename_i hne
    split at h
    · rename_i c r' heq
      split at h
      · rename_i hc
        subst hc
        simp only [Option.some.injEq, Prod.mk.injEq] at h
        obtain ⟨rfl, rfl⟩ := h
        have hdd := takeWhile_drop_decomp dotB l
        rw [heq] at hdd
        exact hdd
      · cases h
    · cases h

theorem wsBacktrackF_decomp : ∀ (k : Nat) {l m t r : List Char},
    wsBacktrackF k l = some (m, t, r) → l = m ++ r ∧ ∃ p, m = p ++ ['\n'] := by
  intro k
  induction k with
  | zero =>
    intro l m t r h
    simp only [wsBacktrackF] at h
    cases heq : tryDots l with
    | none => rw [heq] at h; cases h
    | some tr =>
      obtain ⟨t', r'⟩ := tr
      rw [heq] at h
      simp only [Option.some.injEq, Prod.mk.injEq] at h
      obtain ⟨hm, ht, hr⟩ := h
      have hl := tryDots_decomp heq
      exact ⟨by simp [← hm, ← hr, hl], ⟨t', hm.symm⟩⟩
  | succ k ih =>
    intro l m t r h
    simp only [wsBacktrackF] at h
    cases heq : tryDots (l.drop (k + 1)) with
    | none => rw [heq] at h; exact ih h
    | some tr =>
      obtain ⟨t', r'⟩ := tr
      rw [heq] at h
      simp only [Option.some.injEq, Prod.mk.injEq] at h
      obtain ⟨hm, ht, hr⟩ := h
      have hl := tryDots_decomp heq
      refine ⟨?_, ⟨l.take (k + 1) ++ t', by simp [← hm]⟩⟩
      calc l = l.take (k + 1) ++ l.drop (k + 1) := (List.take_append_drop _ _).symm
        _ = l.take (k + 1) ++ (t' ++ '\n' :: r') := by rw [hl]
        _ = m ++ r := by simp [← hm, ← hr]

theorem headerCore_decomp : ∀ {l m t r : List Char}, headerCore l = some (m, t, r) →
    l = m ++ r ∧ 0 < m.length ∧ ∃ p, m = p ++ ['\n'] := by
  intro l m t r h
  simp only [headerCore] at h
  split at h
  · rename_i hpre
    obtain ⟨u, hu⟩ := isPrefixB_decomp hpre
    cases heq : wsBacktrackF ((l.drop 2).takeWhile jsWsB).length (l.drop 2) with
    | none => rw [heq] at h; cases h
    | some mtr =>
      obtain ⟨m', t', r'⟩ := mtr
      rw [heq] at h
      simp only [Option.some.injEq, Prod.mk.injEq] at h
      obtain ⟨hm, ht, hr⟩ := h
      obtain ⟨hdec, p, hp⟩ := wsBacktrackF_decomp _ heq
      have hdrop : l.drop 2 = u := by rw [hu]; rfl
      have hu2 : u = m' ++ r' := by rw [← hdrop]; exact hdec
      refine ⟨?_, by rw [← hm]; simp only [List.length_cons]; omega,
        ⟨'#' :: '#' :: p, by simp [← hm, hp]⟩⟩
      calc l = ['#', '#'] ++ u := hu
        _ = ['#', '#'] ++ (m' ++ r') := by rw [hu2]
        _ = m ++ r := by simp [← hm, ← hr]
  · split at h
    · cases h
    · rename_i hds
      split at h
      · rename_i c r2 heq2
        split at h
        · rename_i hc
          subst hc
          cases heq : wsBacktrackF (r2.takeWhile jsWsB).length r2 with
          | none => rw [heq] at h; cases h
          | some mtr =>
            obtain ⟨m', t', r'⟩ := mtr
            rw [heq] at h
            simp only [Option.some.injEq, Prod.mk.injEq] at h
            obtain ⟨hm, ht, hr⟩ := h
            obtain ⟨hdec, p, hp⟩ := wsBacktrackF_decomp _ heq
            have hds' : l = l.takeWhile Char.isDigit ++ ('.' :: r2) := by
              conv_lhs => rw [takeWhile_drop_decomp Char.isDigit l]
              rw [heq2]
            refine ⟨?_, by rw [← hm]; simp only [List.length_append, List.length_cons]; omega, ?_⟩
            · calc l = l.takeWhile Char.isDigit ++ ('.' :: r2) := hds'
                _ = l.takeWhile Char.isDigit ++ ('.' :: (m' ++ r')) := by rw [hdec]
                _ = m ++ r := by simp [← hm, ← hr]
            · exact ⟨l.takeWhile Char.isDigit ++ '.' :: p, by simp [← hm, hp]⟩
        · cases h
      · cases h

/-- Every header match ends by consuming a newline, and matches lie at
or after the scan position. -/
theorem scanHeadersF_slice_nl : ∀ (fuel : Nat) (l : List Char) (pos : Nat) (b : Bool)
    (i n : Nat) (t : List Char), (i, n, t) ∈ scanHeadersF fuel l pos b →
    pos ≤ i ∧ ∃ p, (l.drop (i - pos)).take n = p ++ ['\n'] := by
  intro fuel
  induction fuel with
  | zero => intro l pos b i n t h; simp [scanHeadersF] at h
  | succ fuel ih =>
    intro l pos b i n t h
    match l with
    | [] => simp [scanHeadersF] at h
    | c :: cs =>
      simp only [scanHeadersF] at h
      cases hcore : (if b then headerCore (c :: cs) else none) with
      | some mtr =>
        obtain ⟨m, t', r⟩ := mtr
        rw [hcore] at h
        have hb : headerCore (c :: cs) = some (m, t', r) := by
          cases b with
          | true => simpa using hcore
          | false => simp at hcore
        obtain ⟨hdec, hpos, p, hp⟩ := headerCore_decomp hb
        simp only [List.mem_cons, Prod.mk.injEq] at h
        rcases h with ⟨h1, h2, h3⟩ | h
        · subst h1
          subst h2
          refine ⟨le_rfl, p, ?_⟩
          rw [Nat.sub_self, List.drop_zero, hdec, List.take_left, hp]
        · obtain ⟨hge, p', hp'⟩ := ih r (pos + m.length) false i n t h
          refine ⟨by omega, p', ?_⟩
          rw [hdec]
          have harith : i - pos = m.length + (i - (pos + m.length)) := by omega
          rw [harith, List.drop_append]
          exact hp'
      | none =>
        rw [hcore] at h
        by_cases hc : c = '\n'
        · rw [if_pos hc] at h
          subst hc
          cases hcore2 : headerCore cs with
          | some mtr =>
            obtain ⟨m, t', r⟩ := mtr
            rw [hcore2] at h
            obtain ⟨hdec, hpos, p, hp⟩ := headerCore_decomp hcore2
            simp only [List.mem_cons, Prod.mk.injEq] at h
            rcases h with ⟨h1, h2, h3⟩ | h
            · subst h1
              subst h2
              refine ⟨le_rfl, '\n' :: p, ?_⟩
              rw [Nat.sub_self, List.drop_zero]
              simp only [List.take_succ_cons, List.cons_append]
              rw [hdec, List.take_left, hp]
            · obtain ⟨hge, p', hp'⟩ := ih r (pos + 1 + m.length) false i n t h
              refine ⟨by omega, p', ?_⟩
              have harith : i - pos = (m.length + (i - (pos + 1 + m.length))) + 1 := by omega
              rw [harith, List.drop_succ_cons, hdec, List.drop_append]
              exact hp'
          | none =>
            rw [hcore2] at h
            obtain ⟨hge, p', hp'⟩ := ih cs (pos + 1) false i n t h
            refine ⟨by omega, p', ?_⟩
            have harith : i - pos = (i - (pos + 1)) + 1 := by omega
            rw [harith, List.drop_succ_cons]
            exact hp'
        · rw [if_neg hc] at h
          obtain ⟨hge, p', hp'⟩ := ih cs (pos + 1) false i n t h
          refine ⟨by omega, p', ?_⟩
          have harith : i - pos = (i - (pos + 1)) + 1 := by omega
          rw [harith, List.drop_succ_cons]
          exact hp'

/-- C10: every header-pattern match ends by consuming a newline (the
pattern requires a terminating newline), so an unterminated final-line
heading is never recognized; concretely, "abc\n## Trailing" falls back
to the single "Analysis" section, the marker text left in its content. -/
theorem c10_header_requires_newline :
    (∀ (l : List Char) (i n : Nat) (t : List Char), (i, n, t) ∈ scanHeaders l →
      ∃ p, (l.drop i).take n = p ++ ['\n']) ∧
    parseSummary "abc\n## Trailing" =
      [⟨"Analysis", "abc\n## Trailing", "comprehensive"⟩] := by
  constructor
  · intro l i n t h
    have h' : (i, n, t) ∈ scanHeadersF l.length l 0 true := h
    have := scanHeadersF_slice_nl l.length l 0 true i n t h'
    simpa using this.2
  · decide

/-- C10 (witness): the match list of "## A\nB\n" contains the match
(0, 5, "A"), whose matched text "## A\n" indeed ends with a newline. -/
theorem c10_header_requires_newline_witness :
    (0, 5, "A".data) ∈ scanHeaders "## A\nB\n".data ∧
    ∃ p, (("## A\nB\n".data).drop 0).take 5 = p ++ ['\n'] :=
  ⟨by decide, c10_header_requires_newline.1 "## A\nB\n".data 0 5 "A".data (by decide)⟩

theorem chained_mono : ∀ {ms : List (Nat × Nat × List Char)} {lo lo' hi : Nat},
    Chained lo hi ms → lo' ≤ lo → Chained lo' hi ms := by
  intro ms
  cases ms with
  | nil => intro lo lo' hi h hle; simp [Chained]
  | cons first rest =>
    obtain ⟨i, n, t⟩ := first
    intro lo lo' hi h hle
    simp only [Chained] at h ⊢
    exact ⟨le_trans hle h.1, h.2.1, h.2.2⟩

/-- The header matches are in document order, pairwise disjoint, and
contained in the scanned range. -/
theorem scanHeadersF_chained : ∀ (fuel : Nat) (l : List Char) (pos : Nat) (b : Bool),
    Chained pos (pos + l.length) (scanHeadersF fuel l pos b) := by
  intro fuel
  induction fuel with
  | zero => intro l pos b; simp [scanHeadersF, Chained]
  | succ fuel ih =>
    intro l pos b
    match l with
    | [] => simp [scanHeadersF, Chained]
    | c :: cs =>
      simp only [scanHeadersF]
      cases hcore : (if b then headerCore (c :: cs) else none) with
      | some mtr =>
        obtain ⟨m, t', r⟩ := mtr
        have hb : headerCore (c :: cs) = some (m, t', r) := by
          cases b with
          | true => simpa using hcore
          | false => simp at hcore
        obtain ⟨hdec, hpos, p, hp⟩ := headerCore_decomp hb
        have hlen : (c :: cs).length = m.length + r.length := by rw [hdec]; simp
        simp only [Chained]
        refine ⟨le_rfl, by omega, ?_⟩
        have hch := ih r (pos + m.length) false
        have heq : pos + m.length + r.length = pos + (c :: cs).length := by omega
        rwa [heq] at hch
      | none =>
        by_cases hc : c = '\n'
        · rw [if_pos hc]
          cases hcore2 : headerCore cs with
          | some mtr =>
            obtain ⟨m, t', r⟩ := mtr
            obtain ⟨hdec, hpos, p, hp⟩ := headerCore_decomp hcore2
            have hlen : cs.length = m.length + r.length := by rw [hdec]; simp
            simp only [Chained, List.length_cons]
            refine ⟨le_rfl, by omega, ?_⟩
            have hch := ih r (pos + 1 + m.length) false
            have heq : pos + 1 + m.length + r.length = pos + (cs.length + 1) := by omega
            rw [heq] at hch
            have heq2 : pos + (m.length + 1) = pos + 1 + m.length := by omega
            rw [heq2]
            exact hch
          | none =>
            have hch := ih cs (pos + 1) false
            have heq : pos + 1 + cs.length = pos + (c :: cs).length := by
              simp only [List.length_cons]
              omega
            rw [heq] at hch
            exact chained_mono hch (by omega)
        · rw [if_neg hc]
          have hch := ih cs (pos + 1) false
          have heq : pos + 1 + cs.length = pos + (c :: cs).length := by
            simp only [List.length_cons]
            omega
          rw [heq] at hch
          exact chained_mono hch (by omega)

/-- Unfolding equation for `segPairs` on a cons cell. -/
theorem segPairs_cons (f : List Char) (i n : Nat) (t : List Char)
    (ms : List (Nat × Nat × List Char)) :
    segPairs f ((i, n, t) :: ms) =
      ((f.drop i).take n,
        (f.take (match ms with | [] => f.length | (i2, _, _) :: _ => i2)).drop (i + n)) ::
        segPairs f ms := rfl

/-- Given chained matches, the concatenation of each match's text and
following raw content reassembles the text after the first match's
start. -/
theorem segPairs_flatten : ∀ (ms : List (Nat × Nat × List Char)) (f : List Char) (lo : Nat),
    Chained lo f.length ms →
    ((segPairs f ms).map (fun p => p.1 ++ p.2)).flatten =
      (match ms with | [] => ([] : List Char) | (i, _, _) :: _ => f.drop i) := by
  intro ms
  induction ms with
  | nil => intro f lo h; simp [segPairs]
  | cons first rest ih =>
    obtain ⟨i, n, t⟩ := first
    intro f lo h
    simp only [Chained] at h
    obtain ⟨h1, h2, h3⟩ := h
    show ((segPairs f ((i, n, t) :: rest)).map (fun p => p.1 ++ p.2)).flatten = f.drop i
    rw [segPairs_cons, List.map_cons, List.flatten_cons]
    cases rest with
    | nil =>
      dsimp only
      simp only [segPairs, List.map_nil, List.flatten_nil, List.append_nil, List.take_length]
      calc (f.drop i).take n ++ f.drop (i + n)
          = (f.drop i).take n ++ (f.drop i).drop n := by rw [List.drop_drop]
        _ = f.drop i := List.take_append_drop _ _
    | cons second rest' =>
      obtain ⟨i2, n2, t2⟩ := second
      have hrest : ((segPairs f ((i2, n2, t2) :: rest')).map (fun p => p.1 ++ p.2)).flatten =
          f.drop i2 := ih f (i + n) h3
      simp only [Chained] at h3
      obtain ⟨h4, h5, _⟩ := h3
      dsimp only
      rw [hrest, List.append_assoc]
      have hsplit : f.drop (i + n) = (f.take i2).drop (i + n) ++ f.drop i2 := by
        have hlen2 : (f.take i2).length = i2 := by
          rw [List.length_take]
          omega
        conv_lhs => rw [← List.take_append_drop i2 f]
        rw [List.drop_append_of_le_length (by omega)]
      calc (f.drop i).take n ++ ((f.take i2).drop (i + n) ++ f.drop i2)
          = (f.drop i).take n ++ f.drop (i + n) := by rw [← hsplit]
        _ = (f.drop i).take n ++ (f.drop i).drop n := by rw [List.drop_drop]
        _ = f.drop i := List.take_append_drop _ _

/-- The formatted text is exactly the pre-header prefix followed by the
alternating header markers and raw section contents. -/
theorem chained_reassemble (f : List Char) (ms : List (Nat × Nat × List Char))
    (h : Chained 0 f.length ms) :
    f = preTake f ms ++ ((segPairs f ms).map (fun p => p.1 ++ p.2)).flatten := by
  cases ms with
  | nil => simp [preTake, segPairs]
  | cons first rest =>
    obtain ⟨i, n, t⟩ := first
    have hfl := segPairs_flatten ((i, n, t) :: rest) f 0 h
    simp only [] at hfl
    rw [hfl]
    simp only [preTake]
    exact (List.take_append_drop i f).symm

/-- The loop's section contents are the trimmed raw segments. -/
theorem sectionsLoop_contents : ∀ (ms : List (Nat × Nat × List Char)) (f : List Char),
    (sectionsLoop f ms).map Sec.content =
      (segPairs f ms).map (fun p => String.mk (jsTrim p.2)) := by
  intro ms
  induction ms with
  | nil => intro f; rfl
  | cons first rest ih =>
    obtain ⟨i, n, t⟩ := first
    intro f
    simp only [sectionsLoop, segPairs, List.map_cons, ih]

/-- The contents of the sections built from a formatted text are the
single fallback when no header matches, and otherwise the optional
substantial trimmed pre-header chunk followed by the trimmed raw
segments. -/
theorem parseSummaryCore_contents (f : List Char) :
    (parseSummaryCore f).map Sec.content =
      (match scanHeaders f with
       | [] => [String.mk f]
       | (i0, _, _) :: _ =>
         (if 0 < i0 then
            if 50 < (jsTrim (f.take i0)).length then [String.mk (jsTrim (f.take i0))]
            else []
          else []) ++
         (segPairs f (scanHeaders f)).map (fun p => String.mk (jsTrim p.2))) := by
  simp only [parseSummaryCore]
  cases hms : scanHeaders f with
  | nil => simp [sectionsLoop]
  | cons first rest =>
    obtain ⟨i0, n0, t0⟩ := first
    split
    · rename_i hemp
      simp only [sectionsLoop, List.isEmpty_eq_true, List.append_eq_nil] at hemp
      exact absurd hemp.2 (List.cons_ne_nil _ _)
    · rw [List.map_append, sectionsLoop_contents]
      congr 1
      dsimp only
      split
      · split
        · rfl
        · rfl
      · rfl

/-!  Structure of the pass-10 sentence-boundary match (claim C5). -/

theorem headRest_decomp : ∀ {l : List Char} {c : Char} {rest : List Char},
    headRest l = some (c, rest) → l = c :: rest := by
  intro l c rest h
  cases l with
  | nil => simp [headRest] at h
  | cons a as =>
    simp only [headRest, Option.some.injEq, Prod.mk.injEq] at h
    rw [h.1, h.2]

theorem firstTwo_decomp : ∀ {l : List Char} {i s : Char} {rest : List Char},
    firstTwo l = some (i, s, rest) → l = i :: s :: rest := by
  intro l i s rest h
  cases l with
  | nil => simp [firstTwo] at h
  | cons a as =>
    cases as with
    | nil => simp [firstTwo] at h
    | cons b bs =>
      simp only [firstTwo, Option.some.injEq, Prod.mk.injEq] at h
      rw [h.1, h.2.1, h.2.2]

theorem matchSentenceStart_decomp : ∀ {l w nw rest : List Char},
    matchSentenceStart l = some (w, nw, rest) →
    l = w ++ nw ++ rest ∧ w ≠ [] ∧ (∀ c ∈ w, jsWsB c = true) ∧
    ∃ (U : Char) (mid : List Char) (e : Char), nw = U :: (mid ++ [e]) ∧ U.isUpper = true ∧
      mid ≠ [] ∧ (∀ c ∈ mid, c.isLower = true ∨ c = 'I') ∧ jsWsB e = true := by
  intro l w nw rest h
  unfold matchSentenceStart at h
  by_cases hwe : (l.takeWhile jsWsB).isEmpty
  · rw [if_pos hwe] at h
    cases h
  · rw [if_neg hwe] at h
    have hwne : l.takeWhile jsWsB ≠ [] := by
      intro hfalse
      rw [hfalse] at hwe
      simp at hwe
    cases hhr : headRest (l.drop (l.takeWhile jsWsB).length) with
    | none => rw [hhr] at h; cases h
    | some ur =>
      obtain ⟨u, r1⟩ := ur
      rw [hhr] at h
      dsimp only at h
      have hdl : l.drop (l.takeWhile jsWsB).length = u :: r1 := headRest_decomp hhr
      by_cases hup : u.isUpper = true
      · rw [if_pos hup] at h
        by_cases hle : (r1.takeWhile Char.isLower).isEmpty
        · rw [if_pos hle] at h
          cases hft : firstTwo r1 with
          | none => rw [hft] at h; cases h
          | some isr =>
            obtain ⟨i, s, rest'⟩ := isr
            rw [hft] at h
            dsimp only at h
            have hr1 : r1 = i :: s :: rest' := firstTwo_decomp hft
            by_cases his : (i = 'I' && jsWsB s) = true
            · rw [if_pos his] at h
              simp only [Bool.and_eq_true, decide_eq_true_eq] at his
              obtain ⟨hieq, hsws⟩ := his
              simp only [Option.some.injEq, Prod.mk.injEq] at h
              obtain ⟨hw, hnw, hrest⟩ := h
              subst hw
              subst hnw
              subst hrest
              subst hieq
              refine ⟨?_, hwne, fun c hc => List.mem_takeWhile_imp hc,
                u, ['I'], s, rfl, hup, by simp, by simp, hsws⟩
              conv_lhs => rw [takeWhile_drop_decomp jsWsB l]
              rw [hdl, hr1]
              simp
            · rw [if_neg his] at h
              cases h
        · rw [if_neg hle] at h
          cases hhr2 : headRest (r1.drop (r1.takeWhile Char.isLower).length) with
          | none => rw [hhr2] at h; cases h
          | some sr =>
            obtain ⟨s, rest'⟩ := sr
            rw [hhr2] at h
            dsimp only at h
            have hdr1 : r1.drop (r1.takeWhile Char.isLower).length = s :: rest' :=
              headRest_decomp hhr2
            by_cases hsws : jsWsB s = true
            · rw [if_pos hsws] at h
              simp only [Option.some.injEq, Prod.mk.injEq] at h
              obtain ⟨hw, hnw, hrest⟩ := h
              subst hw
              subst hnw
              subst hrest
              have hlne : r1.takeWhile Char.isLower ≠ [] := by
                intro hfalse
                rw [hfalse] at hle
                simp at hle
              refine ⟨?_, hwne, fun c hc => List.mem_takeWhile_imp hc,
                u, r1.takeWhile Char.isLower, s, by simp, hup, hlne,
                fun c hc => Or.inl (List.mem_takeWhile_imp hc), hsws⟩
              conv_lhs => rw [takeWhile_drop_decomp jsWsB l]
              rw [hdl]
              have hr1d : r1 = r1.takeWhile Char.isLower ++ (s :: rest') := by
                conv_lhs => rw [takeWhile_drop_decomp Char.isLower r1]
                rw [hdr1]
              conv_lhs => rw [hr1d]
              simp
            · rw [if_neg hsws] at h
              cases h
      · rw [if_neg hup] at h
        cases h

theorem pass10F_nil : ∀ (n : Nat), pass10F n [] = [] := by
  intro n
  cases n <;> rfl

theorem pass10F_fuel : ∀ (n m : Nat) (l : List Char), l.length ≤ n → l.length ≤ m →
    pass10F n l = pass10F m l := by
  intro n
  induction n with
  | zero =>
    intro m l hn hm
    have : l = [] := List.eq_nil_of_length_eq_zero (Nat.le_zero.mp hn)
    subst this
    rw [pass10F_nil, pass10F_nil]
  | succ n ih =>
    intro m l hn hm
    cases l with
    | nil => rw [pass10F_nil, pass10F_nil]
    | cons c cs =>
      cases m with
      | zero => simp at hm
      | succ m =>
        simp only [List.length_cons, Nat.add_le_add_iff_right] at hn hm
        simp only [pass10F]
        cases hms : matchSentenceStart cs with
        | some wnr =>
          obtain ⟨w, nw, rest⟩ := wnr
          obtain ⟨hdec, hwne, _, _⟩ := matchSentenceStart_decomp hms
          have hr : rest.length ≤ cs.length := by
            rw [hdec]
            simp only [List.length_append]
            omega
          dsimp only
          rw [ih m rest (by omega) (by omega), ih m cs hn hm]
        | none =>
          dsimp only
          rw [ih m cs hn hm]

/-- Scan step: at a non-punctuation character, or when the sentence
pattern does not match after the punctuation, the character is copied. -/
theorem pass10_cons_np (c : Char) {cs : List Char}
    (h : isPunctB c = false ∨ matchSentenceStart cs = none) :
    pass10 (c :: cs) = c :: pass10 cs := by
  unfold pass10
  simp only [List.length_cons, pass10F]
  rcases h with h | h
  · rw [h]
    simp
  · rw [h]
    split <;> rfl

/-- Scan step: a sentence-boundary match whose word is a connector is
copied unchanged. -/
theorem pass10_cons_match_conn (c : Char) {cs w nw rest : List Char}
    (hp : isPunctB c = true) (hm : matchSentenceStart cs = some (w, nw, rest))
    (hc : connectors.contains (jsTrim nw) = true) :
    pass10 (c :: cs) = c :: (w ++ nw ++ pass10 rest) := by
  unfold pass10
  simp only [List.length_cons, pass10F, hp, hm, hc]
  obtain ⟨hdec, hwne, _, _⟩ := matchSentenceStart_decomp hm
  have hr : rest.length ≤ cs.length := by
    rw [hdec]
    simp only [List.length_append]
    omega
  simp only [eq_self_iff_true, if_true]
  rw [pass10F_fuel cs.length rest.length rest hr le_rfl]

/-- Scan step: a sentence-boundary match with a non-connector word gets
a paragraph break inserted. -/
theorem pass10_cons_match_break (c : Char) {cs w nw rest : List Char}
    (hp : isPunctB c = true) (hm : matchSentenceStart cs = some (w, nw, rest))
    (hc : connectors.contains (jsTrim nw) = false) :
    pass10 (c :: cs) = c :: '\n' :: '\n' :: (nw ++ pass10 rest) := by
  unfold pass10
  simp only [List.length_cons, pass10F, hp, hm, hc]
  obtain ⟨hdec, hwne, _, _⟩ := matchSentenceStart_decomp hm
  have hr : rest.length ≤ cs.length := by
    rw [hdec]
    simp only [List.length_append]
    omega
  simp only [Bool.false_eq_true, if_false, eq_self_iff_true, if_true]
  rw [pass10F_fuel cs.length rest.length rest hr le_rfl]

/-!  Substring toolkit for claim C5. -/

theorem isPrefixB_append_self : ∀ (p u : List Char), isPrefixB p (p ++ u) = true := by
  intro p
  induction p with
  | nil => intro u; rfl
  | cons c cs ih => intro u; simp [isPrefixB, ih]

theorem isSubstr_iff_parts : ∀ (pat l : List Char),
    isSubstr pat l = true ↔ ∃ s t, l = s ++ pat ++ t := by
  intro pat l
  induction l with
  | nil =>
    simp only [isSubstr, List.isEmpty_iff]
    constructor
    · intro h
      exact ⟨[], [], by simp [h]⟩
    · rintro ⟨s, t, h⟩
      have h2 := h.symm
      simp only [List.append_eq_nil] at h2
      exact h2.1.2
  | cons c cs ih =>
    simp only [isSubstr, Bool.or_eq_true]
    constructor
    · rintro (h | h)
      · obtain ⟨u, hu⟩ := isPrefixB_decomp h
        exact ⟨[], u, by simp [hu]⟩
      · obtain ⟨s, t, hst⟩ := ih.mp h
        exact ⟨c :: s, t, by simp [hst]⟩
    · rintro ⟨s, t, hst⟩
      cases s with
      | nil =>
        left
        simp only [List.nil_append] at hst
        rw [hst]
        exact isPrefixB_append_self _ _
      | cons a s2 =>
        right
        apply ih.mpr
        simp only [List.cons_append, List.cons.injEq] at hst
        exact ⟨s2, t, hst.2⟩

theorem isSubstr_cons_of {pat cs : List Char} (c : Char) (h : isSubstr pat cs = true) :
    isSubstr pat (c :: cs) = true := by
  simp [isSubstr, h]

theorem isSubstr_append_right : ∀ (s : List Char) {t pat : List Char},
    isSubstr pat t = true → isSubstr pat (s ++ t) = true := by
  intro s
  induction s with
  | nil => intro t pat h; simpa using h
  | cons c cs ih => intro t pat h; exact isSubstr_cons_of c (ih h)

theorem isSubstr_self_append (pat u : List Char) : isSubstr pat (pat ++ u) = true :=
  (isSubstr_iff_parts _ _).mpr ⟨[], u, by simp⟩

theorem append_eq_parts_drop {a b s pt : List Char} (heq : a ++ b = s ++ pt)
    (hal : a.length ≤ s.length) : b = s.drop a.length ++ pt := by
  have h1 : b = (a ++ b).drop a.length := (List.drop_left _ _).symm
  rw [heq, List.drop_append_of_le_length hal] at h1
  exact h1

theorem append_charq_eq {m rest s pt : List Char} (heq : m ++ rest = s ++ pt) {j : Nat}
    (h1 : j < m.length) (h2 : s.length ≤ j) :
    m[j]? = pt[j - s.length]? := by
  have e1 : (m ++ rest)[j]? = m[j]? := by
    rw [List.getElem?_append, if_pos h1]
  have e2 : (s ++ pt)[j]? = pt[j - s.length]? := List.getElem?_append_right h2
  rw [heq, e2] at e1
  exact e1.symm

/-- No occurrence of a pattern beginning "ended." can start inside the
text consumed by a pass-10 sentence-boundary match (after the
punctuation): the consumed text ends in a whitespace character and
contains no period past its start, but the pattern's sixth character is
a period and its first five are not whitespace. -/
theorem no_pat_in_match {w nw rest s t pat : List Char}
    (hw : ∀ c ∈ w, jsWsB c = true)
    {U : Char} {mid : List Char} {e : Char}
    (hnw : nw = U :: (mid ++ [e])) (hup : U.isUpper = true)
    (hmid : ∀ c ∈ mid, c.isLower = true ∨ c = 'I') (he : jsWsB e = true)
    (heq : (w ++ nw) ++ rest = s ++ (pat ++ t))
    (hp6 : pat.take 6 = "ended.".data) (hp6l : 6 ≤ pat.length)
    (hs : s.length < w.length + nw.length) : False := by
  have hmlen : (w ++ nw).length = w.length + nw.length := List.length_append _ _
  have h5lt : 5 < pat.length := by omega
  have hedl : ("ended.".data).length = 6 := rfl
  have hsplit : pat = "ended.".data ++ pat.drop 6 := by
    conv_lhs => rw [← List.take_append_drop 6 pat]
    rw [hp6]
  have hdot : ∀ c ∈ w ++ nw, c ≠ '.' := by
    intro c hc hcd
    subst hcd
    rcases List.mem_append.mp hc with hc | hc
    · exact absurd (hw _ hc) (by decide)
    · rw [hnw] at hc
      rcases List.mem_cons.mp hc with hc | hc
      · rw [← hc] at hup
        exact absurd hup (by decide)
      · rcases List.mem_append.mp hc with hc | hc
        · rcases hmid _ hc with h | h
          · exact absurd h (by decide)
          · exact absurd h (by decide)
        · simp only [List.mem_singleton] at hc
          rw [← hc] at he
          exact absurd he (by decide)
  by_cases hcase : s.length + 5 < (w ++ nw).length
  · have hchar := append_charq_eq heq hcase (by omega)
    rw [Nat.add_sub_cancel_left] at hchar
    have hp5 : (pat ++ t)[5]? = pat[5]? := by
      rw [List.getElem?_append, if_pos h5lt]
    have hpat5 : pat[5]? = some ('.' : Char) := by
      conv_lhs => rw [hsplit]
      rw [List.getElem?_append, if_pos (show 5 < ("ended.".data).length by rw [hedl]; omega)]
      decide
    rw [hp5, hpat5] at hchar
    exact hdot _ (List.getElem?_mem hchar) rfl
  · push_neg at hcase
    have hj1 : (w ++ nw).length - 1 < (w ++ nw).length := by omega
    have hj2 : s.length ≤ (w ++ nw).length - 1 := by omega
    have hk4 : (w ++ nw).length - 1 - s.length ≤ 4 := by omega
    have hchar := append_charq_eq heq hj1 hj2
    have hme : (w ++ nw)[(w ++ nw).length - 1]? = some e := by
      have hpre : w ++ nw = (w ++ U :: mid) ++ [e] := by
        rw [hnw]
        simp
      rw [hpre]
      have hplen : ((w ++ U :: mid) ++ [e]).length - 1 = (w ++ U :: mid).length := by
        simp
      rw [hplen, List.getElem?_append_right (le_refl _), Nat.sub_self]
      rfl
    have hpk : (pat ++ t)[(w ++ nw).length - 1 - s.length]? =
        pat[(w ++ nw).length - 1 - s.length]? := by
      rw [List.getElem?_append,
        if_pos (show (w ++ nw).length - 1 - s.length < pat.length by omega)]
    have hkpat : pat[(w ++ nw).length - 1 - s.length]? =
        ("ended.".data)[(w ++ nw).length - 1 - s.length]? := by
      conv_lhs => rw [hsplit]
      rw [List.getElem?_append,
        if_pos (show (w ++ nw).length - 1 - s.length < ("ended.".data).length by
          rw [hedl]; omega)]
    rw [hme, hpk, hkpat] at hchar
    have hmem2 : e ∈ "ended.".data := List.getElem?_mem hchar.symm
    have hef : jsWsB e = false := by
      fin_cases hmem2 <;> decide
    rw [hef] at he
    cases he

/-- Pass 10 matcher on the sentence start " The next...": the connector
word "The " (with its trailing whitespace) is the captured group. -/
theorem matchSentenceStart_the (v : List Char) :
    matchSentenceStart (' ' :: 'T' :: 'h' :: 'e' :: ' ' :: v) =
      some ([' '], ['T', 'h', 'e', ' '], v) := rfl

/-- Pass 10 matcher on the sentence start " Sources said...": the word
"Sources " (with its trailing whitespace) is the captured group. -/
theorem matchSentenceStart_sources (v : List Char) :
    matchSentenceStart
        (' ' :: 'S' :: 'o' :: 'u' :: 'r' :: 'c' :: 'e' :: 's' :: ' ' :: v) =
      some ([' '], ['S', 'o', 'u', 'r', 'c', 'e', 's', ' '], v) := rfl

/-- Closed form: the sentence-boundary pass leaves "ended. The next"
unchanged at the head of the input ("The" is a connector). -/
theorem pass10_the_closed (t : List Char) :
    pass10 ("ended. The next".data ++ t) = "ended. The next".data ++ pass10 t := by
  have h1 : "ended. The next".data ++ t =
      'e' :: 'n' :: 'd' :: 'e' :: 'd' :: '.' :: ' ' :: 'T' :: 'h' :: 'e' :: ' ' ::
      'n' :: 'e' :: 'x' :: 't' :: t := rfl
  rw [h1]
  rw [pass10_cons_np 'e' (Or.inl (by decide)), pass10_cons_np 'n' (Or.inl (by decide)),
    pass10_cons_np 'd' (Or.inl (by decide)), pass10_cons_np 'e' (Or.inl (by decide)),
    pass10_cons_np 'd' (Or.inl (by decide))]
  rw [pass10_cons_match_conn '.' (by decide) (matchSentenceStart_the _) (by decide)]
  rw [pass10_cons_np 'n' (Or.inl (by decide)), pass10_cons_np 'e' (Or.inl (by decide)),
    pass10_cons_np 'x' (Or.inl (by decide)), pass10_cons_np 't' (Or.inl (by decide))]
  rfl

/-- Closed form: the sentence-boundary pass turns "ended. Sources said"
at the head of the input into "ended.\n\nSources said" ("Sources" is
not a connector, and the separating whitespace is replaced by the
double line break). -/
theorem pass10_sources_closed (t : List Char) :
    pass10 ("ended. Sources said".data ++ t) =
      "ended.\n\nSources said".data ++ pass10 t := by
  have h1 : "ended. Sources said".data ++ t =
      'e' :: 'n' :: 'd' :: 'e' :: 'd' :: '.' :: ' ' :: 'S' :: 'o' :: 'u' :: 'r' ::
      'c' :: 'e' :: 's' :: ' ' :: 's' :: 'a' :: 'i' :: 'd' :: t := rfl
  rw [h1]
  rw [pass10_cons_np 'e' (Or.inl (by decide)), pass10_cons_np 'n' (Or.inl (by decide)),
    pass10_cons_np 'd' (Or.inl (by decide)), pass10_cons_np 'e' (Or.inl (by decide)),
    pass10_cons_np 'd' (Or.inl (by decide))]
  rw [pass10_cons_match_break '.' (by decide) (matchSentenceStart_sources _) (by decide)]
  rw [pass10_cons_np 's' (Or.inl (by decide)), pass10_cons_np 'a' (Or.inl (by decide)),
    pass10_cons_np 'i' (Or.inl (by decide)), pass10_cons_np 'd' (Or.inl (by decide))]
  rfl

/-- Preservation: if an occurrence of a pattern beginning "ended." sits
after an arbitrary prefix, the pass-10 scan reaches it intact (every
match consumed while crossing the prefix ends at or before the
occurrence, by the overlap lemma), so whatever output the pattern
produces at the head of the input appears in the output here too. -/
theorem pass10_preserves (pat out : List Char)
    (hp6 : pat.take 6 = "ended.".data) (hp6l : 6 ≤ pat.length)
    (hstep : ∀ u : List Char, isSubstr out (pass10 (pat ++ u)) = true) :
    ∀ (N : Nat) (s t : List Char), s.length ≤ N →
      isSubstr out (pass10 (s ++ (pat ++ t))) = true := by
  intro N
  induction N with
  | zero =>
    intro s t hsl
    have hnil : s = [] := List.eq_nil_of_length_eq_zero (Nat.le_zero.mp hsl)
    subst hnil
    exact hstep t
  | succ N ih =>
    intro s t hsl
    cases s with
    | nil => exact hstep t
    | cons c s2 =>
      simp only [List.length_cons, Nat.add_le_add_iff_right] at hsl
      by_cases hp : isPunctB c = true
      · cases hms : matchSentenceStart (s2 ++ (pat ++ t)) with
        | none =>
          rw [List.cons_append, pass10_cons_np c (Or.inr hms)]
          exact isSubstr_cons_of c (ih s2 t hsl)
        | some wnr =>
          obtain ⟨w, nw, rest⟩ := wnr
          obtain ⟨hdec, hwne, hwws, U, mid, e, hnw, hup, hmidne, hmid, hews⟩ :=
            matchSentenceStart_decomp hms
          have heq2 : (w ++ nw) ++ rest = s2 ++ (pat ++ t) := by
            simpa only [List.append_assoc] using hdec.symm
          have hle : (w ++ nw).length ≤ s2.length := by
            by_contra hlt
            push_neg at hlt
            rw [List.length_append] at hlt
            exact no_pat_in_match hwws hnw hup hmid hews heq2 hp6 hp6l hlt
          have hrest : rest = s2.drop (w ++ nw).length ++ (pat ++ t) :=
            append_eq_parts_drop heq2 hle
          have hdlen : (s2.drop (w ++ nw).length).length ≤ N := by
            rw [List.length_drop]
            omega
          have hsub := ih (s2.drop (w ++ nw).length) t hdlen
          rw [← hrest] at hsub
          by_cases hc : connectors.contains (jsTrim nw) = true
          · rw [List.cons_append, pass10_cons_match_conn c hp hms hc]
            have h2 := isSubstr_append_right ((c :: w) ++ nw) hsub
            have he2 : ((c :: w) ++ nw) ++ pass10 rest =
                c :: (w ++ nw ++ pass10 rest) := by simp
            rwa [he2] at h2
          · have hcf : connectors.contains (jsTrim nw) = false := by simpa using hc
            rw [List.cons_append, pass10_cons_match_break c hp hms hcf]
            have h2 := isSubstr_append_right (c :: '\n' :: '\n' :: nw) hsub
            have he2 : (c :: '\n' :: '\n' :: nw) ++ pass10 rest =
                c :: '\n' :: '\n' :: (nw ++ pass10 rest) := by simp
            rwa [he2] at h2
      · have hpf : isPunctB c = false := by simpa using hp
        rw [List.cons_append, pass10_cons_np c (Or.inl hpf)]
        exact isSubstr_cons_of c (ih s2 t hsl)

/-- C5: the connector exclusion list of the sentence-boundary pass — on
every input containing "ended. The next" the pass leaves that substring
intact (no paragraph break is inserted before "The", which is in the
connector exclusion list), while on every input containing
"ended. Sources said" it inserts a double line break between "ended."
and "Sources" (the separating whitespace is replaced by the break). -/
theorem c5_exclusion_list (s t u v : List Char) :
    isSubstr "ended. The next".data
      (pass10 (s ++ ("ended. The next".data ++ t))) = true ∧
    isSubstr "ended.\n\nSources said".data
      (pass10 (u ++ ("ended. Sources said".data ++ v))) = true := by
  constructor
  · refine pass10_preserves _ _ (by decide) (by decide) ?_ s.length s t le_rfl
    intro u2
    rw [pass10_the_closed]
    exact isSubstr_self_append _ _
  · refine pass10_preserves _ _ (by decide) (by decide) ?_ u.length u v le_rfl
    intro u2
    rw [pass10_sources_closed]
    exact isSubstr_self_append _ _

/-- A wrapped parts list is a fixed point of `processList`: span parts
are returned unchanged (React elements with `props`), and a part left
as plain text was exactly one whose own pattern test was false, so the
string case leaves it alone on the next pass. -/
theorem processList_wrap (ps : List (List Char)) :
    processList (childrenOf (ps.map fun part =>
      if testArticle part then Child.hspan part else Child.text part)) =
    childrenOf (ps.map fun part =>
      if testArticle part then Child.hspan part else Child.text part) := by
  induction ps with
  | nil => rfl
  | cons p ps ih =>
    simp only [List.map_cons, childrenOf, processList]
    rw [ih]
    by_cases h : testArticle p = true
    · rw [if_pos h]
      rfl
    · rw [if_neg h]
      simp only [processChildren]
      rw [if_neg h]

mutual

theorem processChildren_idem : ∀ (x : Child),
    processChildren (processChildren x) = processChildren x
  | Child.text s => by
    by_cases h : testArticle s = true
    · have h1 : processChildren (Child.text s) = Child.arr (splitParts s) := by
        simp only [processChildren]
        rw [if_pos h]
      rw [h1]
      simp only [processChildren]
      unfold splitParts
      exact congrArg Child.arr (processList_wrap (splitArticle s))
    · have h1 : processChildren (Child.text s) = Child.text s := by
        simp only [processChildren]
        rw [if_neg h]
      rw [h1]
      exact h1
  | Child.hspan s => rfl
  | Child.arr cs => by
    simp only [processChildren]
    rw [processList_idem cs]
  | Child.node tag cs => rfl

theorem processList_idem : ∀ (cs : ChildList),
    processList (processList cs) = processList cs
  | ChildList.nil => rfl
  | ChildList.cons c cs => by
    simp only [processList]
    rw [processChildren_idem c, processList_idem cs]

end

/-- C8: the reference highlighter is idempotent over structure —
applying `processChildren` to its own output changes nothing: already
wrapped spans are left untouched (they are elements with `props`), the
parts of a split string are each a fixed point of the string case, and
arrays are mapped elementwise, so segment structure, sibling order and
text are all unchanged by a second pass. -/
theorem c8_idempotent :
    (∀ (x : Child), processChildren (processChildren x) = processChildren x) ∧
    (∀ (cs : ChildList), processList (processList cs) = processList cs) :=
  ⟨processChildren_idem, processList_idem⟩

/-- C1 (counterexample): on input "## A\nB\n" the concatenated section
contents are "B" while the formatted text minus the header-marker text
is "B\n" — the trailing newline, which is not heading-marker text, is
lost (sections are trimmed), so concatenating contents does not
reproduce the normalizer's output minus markers. -/
theorem c1_counterexample :
    ((parseSummary "## A\nB\n").map (fun sec => sec.content.data)).flatten = "B".data ∧
    stripHeaderMarkers (formattedChars "## A\nB\n".data) = "B\n".data ∧
    "B".data ≠ "B\n".data := by
  decide

/-- C1 (amended): the header matches partition the formatted text in
document order with no overlap — the text is exactly the pre-header
prefix followed by the alternating marker texts and raw segment
contents — and the sections' contents are the whitespace-trimmed raw
segments, with the pre-header chunk kept only when its trimmed length
exceeds 50, and the whole text as the single fallback section when
there is no match.  Beyond the heading-marker text, only the trimmed
boundary whitespace and a short pre-header chunk are dropped. -/
theorem c1_partition_amended (s : String) (f : List Char)
    (hf : f = formattedChars s.data) :
    f = preTake f (scanHeaders f) ++
        ((segPairs f (scanHeaders f)).map (fun p => p.1 ++ p.2)).flatten ∧
    (parseSummary s).map Sec.content =
      (match scanHeaders f with
       | [] => [String.mk f]
       | (i0, _, _) :: _ =>
         (if 0 < i0 then
            if 50 < (jsTrim (f.take i0)).length then [String.mk (jsTrim (f.take i0))]
            else []
          else []) ++
         (segPairs f (scanHeaders f)).map (fun p => String.mk (jsTrim p.2))) := by
  constructor
  · apply chained_reassemble
    unfold scanHeaders
    have h := scanHeadersF_chained f.length f 0 true
    rwa [Nat.zero_add] at h
  · have hps : parseSummary s = parseSummaryCore f := by rw [hf]; rfl
    rw [hps]
    exact parseSummaryCore_contents f

/-- C1 (witness): the partition equality instantiated on the concrete
input "## A\nB\n". -/
theorem c1_partition_amended_witness :
    formattedChars "## A\nB\n".data =
      preTake (formattedChars "## A\nB\n".data)
          (scanHeaders (formattedChars "## A\nB\n".data)) ++
        ((segPairs (formattedChars "## A\nB\n".data)
            (scanHeaders (formattedChars "## A\nB\n".data))).map
          (fun p => p.1 ++ p.2)).flatten :=
  (c1_partition_amended "## A\nB\n" (formattedChars "## A\nB\n".data) rfl).1

/-- C9: `parseSummary` is a total function on strings (it is a Lean
function, hence pure and deterministic) and always returns at least one
section. -/
theorem c9_total_nonempty (s : String) : 1 ≤ (parseSummary s).length := by
  simp only [parseSummary, parseSummaryCore]
  split
  · simp
  · rename_i hne
    simp only [List.isEmpty_iff] at hne
    exact List.length_pos.mpr hne

end NewsUse
